import Mathlib

/-!
Shallow embedding of the Tuple / Matrix / Canvas math kernel of a small
ray tracer (`src/math/tuple.rs`, `src/math/util.rs`, `src/math/matrix.rs`,
`src/graphics/canvas.rs`).

The Rust `f64` values are modelled by exact rationals `ℚ`.  Every claim
settled below either compares two runs of the identical sequence of
arithmetic operations (so both sides round identically in `f64`) or
evaluates integer-exact data well inside the exactly-representable range,
so exact arithmetic is faithful.

Rust panics (failed `assert!`, out-of-bounds indexing such as `rows[i]` or
`Vec::remove`, and `try_into().unwrap()`) are modelled by `Option.none`:
a function returning `none` corresponds to a fatal, unrecoverable abort of
the Rust program, never to a normal return.
-/

namespace RayTracer

/-- Machine epsilon `2⁻⁵²`, i.e. `std::f64::EPSILON`. -/
def EPSILON : ℚ := 1 / 2 ^ 52

/-- Function `epsilon_eq` from `src/math/util.rs`: `(a - b).abs() < f64::EPSILON`. -/
def epsilonEq (a b : ℚ) : Bool := |a - b| < EPSILON

/-- Struct `Tuple` from `src/math/tuple.rs`: the backing array `[x, y, z, w]`. -/
structure Tuple where
  x : ℚ
  y : ℚ
  z : ℚ
  w : ℚ
deriving DecidableEq

/-- Constant `VECTOR`: the `w` tag of a free vector. -/
def VECTOR : ℚ := 0

/-- Constant `POINT`: the `w` tag of a point. -/
def POINT : ℚ := 1

/-- Factory `Tuple::vector`. -/
def vector (x y z : ℚ) : Tuple := ⟨x, y, z, VECTOR⟩

/-- Factory `Tuple::point`. -/
def point (x y z : ℚ) : Tuple := ⟨x, y, z, POINT⟩

/-- Factory `Tuple::color`. -/
def color (r g b : ℚ) : Tuple := ⟨r, g, b, 0⟩

/-- Accessor `Tuple::red`: the raw (unclamped) first component. -/
def Tuple.red (t : Tuple) : ℚ := t.x

/-- Accessor `Tuple::green`: the raw (unclamped) second component. -/
def Tuple.green (t : Tuple) : ℚ := t.y

/-- Accessor `Tuple::blue`: the raw (unclamped) third component. -/
def Tuple.blue (t : Tuple) : ℚ := t.z

/-- The backing `[f64; 4]` array of a tuple, as a list (what `v.iter()`
iterates over). -/
def Tuple.toList (t : Tuple) : List ℚ := [t.x, t.y, t.z, t.w]

/-- Conversion `impl From<Vec<f64>> for Tuple`: `vector.try_into().unwrap()`
panics (`none`) unless the vector has exactly four elements. -/
def tupleFromVec : List ℚ → Option Tuple
  | [a, b, c, d] => some ⟨a, b, c, d⟩
  | _ => none

/-- Method `Tuple::cross`: 3-D cross product of the first three components,
with the fourth component forced to the vector tag `VECTOR = 0.0` no matter
what the operands' fourth components are. -/
def cross (a o : Tuple) : Tuple :=
  ⟨a.y * o.z - a.z * o.y, a.z * o.x - a.x * o.z, a.x * o.y - a.y * o.x, VECTOR⟩

/-- Operator `impl Neg for Tuple`: negate every component. -/
def Tuple.neg (t : Tuple) : Tuple := ⟨-t.x, -t.y, -t.z, -t.w⟩

/-- Operator `impl PartialEq for Tuple`: all four component pairs
epsilon-equal. -/
def tupleEq (a o : Tuple) : Bool :=
  epsilonEq a.x o.x && epsilonEq a.y o.y && epsilonEq a.z o.z && epsilonEq a.w o.w

/-- Method `f64::clamp(lo, hi)` (for `lo ≤ hi`, which is how the canvas
uses it). -/
def fclamp (v lo hi : ℚ) : ℚ := if v < lo then lo else if v > hi then hi else v

/-- Method `f64::round`: nearest integer, ties rounded away from zero. -/
def fround (v : ℚ) : ℤ := if 0 ≤ v then ⌊v + 1 / 2⌋ else -⌊-v + 1 / 2⌋

/-- One channel of `impl fmt::Display for Canvas` in `src/graphics/canvas.rs`:
`(255.0 * channel.clamp(0.0, 1.0)).clamp(0.0, 255.0).round() as u8`.
The final `as u8` saturating cast is the identity here because the rounded
value already lies in `[0, 255]`. -/
def writeChannel (c : ℚ) : ℤ := fround (fclamp (255 * fclamp c 0 1) 0 255)

/-- The `r g b` integer triple that `Display for Canvas` writes for one
pixel, via the `red`/`green`/`blue` accessors. -/
def writePixel (p : Tuple) : ℤ × ℤ × ℤ :=
  (writeChannel p.red, writeChannel p.green, writeChannel p.blue)

/-- Struct `Matrix` from `src/math/matrix.rs`. -/
structure Matrix where
  width : Nat
  height : Nat
  rows : List (List ℚ)
deriving DecidableEq

/-- The rows / width / height consistency that `Matrix::new` and
`Matrix::with_dimension` establish: `height` rows, each of length `width`. -/
def Wf (m : Matrix) : Prop :=
  m.rows.length = m.height ∧ ∀ r ∈ m.rows, r.length = m.width

/-- Constructor `Matrix::new`: height is the number of rows, width is the
first row's length (0 when there are no rows); the sanity `assert!` that
every row has that length panics (`none`) on ragged input. -/
def matrixNew (rows : List (List ℚ)) : Option Matrix :=
  let height := rows.length
  let width := if height > 0 then (rows.headD []).length else 0
  if rows.all (fun r => r.length = width) then some ⟨width, height, rows⟩ else none

/-- Body of `Matrix::col`: `rows.iter().map(|r| r[c]).collect()`, walking the
rows in order — `none` as soon as some row is too short (the `r[c]`
indexing panics). -/
def colAux (c : Nat) : List (List ℚ) → Option (List ℚ)
  | [] => some []
  | r :: rs => (r.get? c).bind (fun x => (colAux c rs).map (fun xs => x :: xs))

/-- Method `Matrix::col`. -/
def col (m : Matrix) (c : Nat) : Option (List ℚ) := colAux c m.rows

/-- Loop of `Matrix::transpose`: `for i in 0..self.width { rows.push(self.col(i)) }`,
collecting the columns starting at index `i` with `k` columns still to go. -/
def colsFrom (m : Matrix) : Nat → Nat → Option (List (List ℚ))
  | _, 0 => some []
  | i, k + 1 => (col m i).bind (fun cl => (colsFrom m (i + 1) k).map (fun cs => cl :: cs))

/-- Method `Matrix::transpose`: pushes the columns `0..width` as the new
rows, and keeps `width` and `height` unchanged — exactly as the source
does (it does not swap them). -/
def transpose (m : Matrix) : Option Matrix :=
  (colsFrom m 0 m.width).map (fun rows => ⟨m.width, m.height, rows⟩)

/-- Method `Vec::remove(i)`: panics (`none`) when `i` is out of bounds,
otherwise deletes the element at `i`. -/
def removeAt {α : Type} (l : List α) (i : Nat) : Option (List α) :=
  if i < l.length then some (l.eraseIdx i) else none

/-- The `rows.iter_mut().for_each(|row| row.remove(c))` step of
`Matrix::submatrix`, applied to every row in order (`none` at the first row
whose `remove(c)` would panic). -/
def mapRemove (c : Nat) : List (List ℚ) → Option (List (List ℚ))
  | [] => some []
  | r :: rs => (removeAt r c).bind (fun r2 => (mapRemove c rs).map (fun rs2 => r2 :: rs2))

/-- Indexing `rows[i][j]` with both bounds checked (`none` = panic). -/
def get2 (rows : List (List ℚ)) (i j : Nat) : Option ℚ :=
  (rows.get? i).bind (fun r => r.get? j)

/-- One step of the Laplace expansion of `Matrix::determinant`: the running
sum over `self.rows[0].iter().enumerate()` of `v * self.cofactor(0, i)`,
with `cofactor(0, i) = determinant(submatrix(0, i)) * (-1 if i odd else 1)`
inlined.  Here `det` is the determinant of the one-smaller matrix and
`rest` holds the rows below row 0, so `submatrix(0, i)` erases column `i`
from every row of `rest`. -/
def detRowSum (det : List (List ℚ) → Option ℚ) (rest : List (List ℚ)) :
    List ℚ → Nat → Option ℚ
  | [], _ => some 0
  | v :: vr, i =>
    match (mapRemove i rest).bind
        (fun sub => (det sub).map (fun d => d * (if i % 2 = 1 then -1 else 1))) with
    | none => none
    | some c =>
      match detRowSum det rest vr (i + 1) with
      | none => none
      | some s => some (v * c + s)

/-- Method `Matrix::determinant`, with fuel equal to the number of rows:
every recursive call goes to a submatrix with exactly one row fewer, so
starting the fuel at `rows.length` (as `determinant` below does) the
`0`-fuel-with-nonempty-rows case is unreachable.  The
`assert_eq!(self.width, self.height)` and the `self.rows[...]` indexing
panics are `none`. -/
def detCoreF (fuel w h : Nat) (rows : List (List ℚ)) : Option ℚ :=
  if w ≠ h then none
  else if w = 2 then
    (get2 rows 0 0).bind (fun a =>
      (get2 rows 1 1).bind (fun d =>
        (get2 rows 0 1).bind (fun b =>
          (get2 rows 1 0).bind (fun c => some (a * d - b * c)))))
  else
    match rows, fuel with
    | [], _ => none
    | _ :: _, 0 => none
    | row0 :: rest, fuel' + 1 =>
      detRowSum (fun sub => detCoreF fuel' (w - 1) (h - 1) sub) rest row0 0

/-- Method `Matrix::determinant` at the matrix level. -/
def determinant (m : Matrix) : Option ℚ :=
  detCoreF m.rows.length m.width m.height m.rows

/-- Method `Matrix::submatrix`: `rows.remove(r)`, then `row.remove(c)` on
every remaining row (either out-of-bounds `remove` panics, `none`);
recorded dimensions shrink by one on each axis. -/
def submatrix (m : Matrix) (r c : Nat) : Option Matrix :=
  (removeAt m.rows r).bind (fun rows1 =>
    (mapRemove c rows1).map (fun rows2 => ⟨m.width - 1, m.height - 1, rows2⟩))

/-- Method `Matrix::minor`: determinant of the submatrix. -/
def minor (m : Matrix) (r c : Nat) : Option ℚ :=
  (submatrix m r c).bind determinant

/-- Method `Matrix::cofactor`: the minor times `-1.0` when `r + c` is odd,
else times `1.0`. -/
def cofactor (m : Matrix) (r c : Nat) : Option ℚ :=
  (minor m r c).map (fun v => v * (if (r + c) % 2 = 1 then -1 else 1))

/-- Spec-side formulation of the general determinant case, written from the
spec's words: the sum over column index `i` of
`element[0][i] × cofactor(0, i)`; the row argument walks along row 0 and
`i` counts its position.  Compared with `determinant` in the Laplace
claim. -/
def laplaceSum (m : Matrix) : List ℚ → Nat → Option ℚ
  | [], _ => some 0
  | v :: vr, i =>
    (cofactor m 0 i).bind (fun cf =>
      (laplaceSum m vr (i + 1)).map (fun s => v * cf + s))

/-- Method `Matrix::invertible`: `self.determinant() != 0.0`, an exact
comparison with zero (no epsilon). -/
def invertible (m : Matrix) : Option Bool :=
  (determinant m).map (fun d => decide (d ≠ 0))

/-- Assignment `n[i][j] = v` on a grid of rows; either indexing panics
(`none`) out of bounds. -/
def setGrid (g : List (List ℚ)) (i j : Nat) (v : ℚ) : Option (List (List ℚ)) :=
  (g.get? i).bind (fun row =>
    if j < row.length then some (g.set i (row.set j v)) else none)

/-- Inner loop of `Matrix::inverse`: `for j in 0..self.rows[i].len()`,
`n[i][j] = self.cofactor(i, j)` — the list argument walks along row `i`
of the original matrix, `j` counts its position. -/
def cofRow (m : Matrix) : List (List ℚ) → Nat → List ℚ → Nat →
    Option (List (List ℚ))
  | g, _, [], _ => some g
  | g, i, _ :: rst, j =>
    match cofactor m i j with
    | none => none
    | some c =>
      match setGrid g i j c with
      | none => none
      | some g1 => cofRow m g1 i rst (j + 1)

/-- Outer loop of `Matrix::inverse`: `for i in 0..self.rows.len()`. -/
def cofGrid (m : Matrix) : List (List ℚ) → List (List ℚ) → Nat →
    Option (List (List ℚ))
  | g, [], _ => some g
  | g, row :: rs, i =>
    match cofRow m g i row 0 with
    | none => none
    | some g1 => cofGrid m g1 rs (i + 1)

/-- Method `Matrix::inverse`: `assert!(self.invertible())` (`none` on
failure — the fatal contract violation), fill a zeroed
`with_dimension(width, height)` grid with the cofactors, recompute the
determinant, transpose the cofactor grid, and divide every element of the
transposed grid by the determinant. -/
def inverse (m : Matrix) : Option Matrix :=
  (invertible m).bind (fun inv =>
    if inv then
      (cofGrid m (List.replicate m.height (List.replicate m.width 0)) m.rows 0).bind
        (fun g =>
          (determinant m).bind (fun d =>
            (transpose ⟨m.width, m.height, g⟩).map
              (fun n => ⟨n.width, n.height,
                n.rows.map (fun r => r.map (fun v => v / d))⟩)))
    else none)

/-- Operator `impl PartialEq for Matrix`: zip the two row-major flattened
element sequences (truncating to the shorter) and compare every pair with
`epsilon_eq`.  The `width` and `height` fields are never consulted. -/
def matrixEq (m o : Matrix) : Bool :=
  ((m.rows.flatten.zip o.rows.flatten).all (fun p => epsilonEq p.1 p.2))

/-- One entry of `impl Mul<Tuple> for Matrix`:
`row.iter().zip(v.iter()).map(|(a, b)| a * b).sum()` — the zip truncates
to the shorter of the row and the 4-element tuple. -/
def dotZip (row v : List ℚ) : ℚ := ((row.zip v).map (fun p => p.1 * p.2)).sum

/-- Assignment `result[i] = v` in `impl Mul<Tuple> for Matrix`: panics
(`none`) when `i` is outside the result vector. -/
def setIdx (l : List ℚ) (i : Nat) (v : ℚ) : Option (List ℚ) :=
  if i < l.length then some (l.set i v) else none

/-- Loop of `impl Mul<Tuple> for Matrix`:
`for (i, row) in self.rows.iter().enumerate()`. -/
def mmtLoop (v : List ℚ) : List ℚ → List (List ℚ) → Nat → Option (List ℚ)
  | res, [], _ => some res
  | res, row :: rs, i =>
    match setIdx res i (dotZip row v) with
    | none => none
    | some res1 => mmtLoop v res1 rs (i + 1)

/-- Operator `impl Mul<Tuple> for Matrix`: dot every row with the tuple
into a zero-initialised vector of length `height`, then `Tuple::from`
(which panics unless that length is exactly 4). -/
def matMulTuple (m : Matrix) (t : Tuple) : Option Tuple :=
  (mmtLoop t.toList (List.replicate m.height 0) m.rows 0).bind tupleFromVec

/-- The 4×4 literal `A` of the spec's inverse example. -/
def A4 : Matrix :=
  ⟨4, 4, [[-5, 2, 6, -8], [1, -5, 1, 8], [7, 7, -6, -7], [1, -3, 7, 4]]⟩

/-- The 3×3 literal `M` of the spec's determinant / cofactor example. -/
def M3 : Matrix :=
  ⟨3, 3, [[1, 2, 6], [-5, 8, -4], [2, 6, 4]]⟩

/-! Helper lemmas. -/

theorem epsilonEq_self (a : ℚ) : epsilonEq a a = true := by
  simp only [epsilonEq, decide_eq_true_eq, sub_self, abs_zero, EPSILON]
  norm_num

theorem epsilonEq_of_eq {a b : ℚ} (h : a = b) : epsilonEq a b = true := by
  subst h; exact epsilonEq_self a

theorem tupleEq_of_eq {a b : Tuple} (hx : a.x = b.x) (hy : a.y = b.y)
    (hz : a.z = b.z) (hw : a.w = b.w) : tupleEq a b = true := by
  simp [tupleEq, epsilonEq_of_eq, hx, hy, hz, hw, epsilonEq_self]

theorem fclamp_mem {v lo hi : ℚ} (h : lo ≤ hi) :
    lo ≤ fclamp v lo hi ∧ fclamp v lo hi ≤ hi := by
  unfold fclamp
  split_ifs <;> constructor <;> linarith

theorem removeAt_of_lt {α : Type} {l : List α} {i : Nat} (h : i < l.length) :
    removeAt l i = some (l.eraseIdx i) := by
  simp [removeAt, h]

theorem mapRemove_eq_some {c : Nat} {rows : List (List ℚ)}
    (h : ∀ r ∈ rows, c < r.length) :
    mapRemove c rows = some (rows.map (fun r => r.eraseIdx c)) := by
  induction rows with
  | nil => rfl
  | cons r rs ih =>
    simp [mapRemove, removeAt_of_lt (h r (by simp)),
      ih (fun x hx => h x (by simp [hx]))]

theorem mapRemove_length {c : Nat} : ∀ {rows l : List (List ℚ)},
    mapRemove c rows = some l → l.length = rows.length := by
  intro rows
  induction rows with
  | nil =>
    intro l h
    simp [mapRemove] at h
    simp [← h]
  | cons r rs ih =>
    intro l h
    simp only [mapRemove] at h
    cases hr : removeAt r c with
    | none => simp [hr] at h
    | some r2 =>
      cases hm : mapRemove c rs with
      | none => simp [hr, hm] at h
      | some rs2 =>
        simp [hr, hm] at h
        simp [← h, ih hm]

theorem detCoreF_cons_succ {fuel w h : Nat} {row0 : List ℚ}
    {rest : List (List ℚ)} (hsq : w = h) (h2 : w ≠ 2) :
    detCoreF (fuel + 1) w h (row0 :: rest) =
      detRowSum (fun sub => detCoreF fuel (w - 1) (h - 1) sub) rest row0 0 := by
  conv_lhs => rw [detCoreF.eq_def]
  rw [if_neg (by simp [hsq]), if_neg h2]

theorem detRowSum_total {det : List (List ℚ) → Option ℚ}
    {rest : List (List ℚ)} :
    ∀ (row : List ℚ) (j : Nat),
      (∀ i, j ≤ i → i < j + row.length → ∃ c,
          ((mapRemove i rest).bind
            (fun sub => (det sub).map
              (fun d => d * (if i % 2 = 1 then -1 else 1)))) = some c) →
      ∃ s, detRowSum det rest row j = some s := by
  intro row
  induction row with
  | nil =>
    intro j _
    exact ⟨0, rfl⟩
  | cons v vr ih =>
    intro j h
    obtain ⟨c, hc⟩ := h j (le_refl j) (by simp)
    obtain ⟨s, hs⟩ := ih (j + 1) (fun i h1 h2 => h i (by omega) (by simp; omega))
    exact ⟨v * c + s, by simp only [detRowSum, hc, hs]⟩

theorem detCoreF_total :
    ∀ (w : Nat) (rows : List (List ℚ)), 2 ≤ w → rows.length = w →
      (∀ r ∈ rows, r.length = w) → ∃ d, detCoreF w w w rows = some d := by
  intro w
  induction w using Nat.strong_induction_on with
  | _ w ih =>
    intro rows h2 hlen hrows
    by_cases hw2 : w = 2
    · subst hw2
      obtain ⟨r0, r1, hr⟩ := List.length_eq_two.mp hlen
      subst hr
      obtain ⟨a, b, ha⟩ := List.length_eq_two.mp (hrows r0 (by simp))
      obtain ⟨c, d, hc⟩ := List.length_eq_two.mp (hrows r1 (by simp))
      subst ha
      subst hc
      exact ⟨a * d - b * c, rfl⟩
    · have h3 : 3 ≤ w := by omega
      obtain ⟨row0, rest, hr⟩ : ∃ row0 rest, rows = row0 :: rest := by
        cases rows with
        | nil => simp at hlen; omega
        | cons a l => exact ⟨a, l, rfl⟩
      subst hr
      obtain ⟨wp, rfl⟩ : ∃ wp, w = wp + 1 := ⟨w - 1, by omega⟩
      have hrest : rest.length = wp := by simp at hlen; omega
      rw [detCoreF_cons_succ rfl hw2]
      apply detRowSum_total
      intro i _ hi
      have hrow0 : row0.length = wp + 1 := hrows row0 (by simp)
      rw [Nat.zero_add, hrow0] at hi
      have hmr : mapRemove i rest = some (rest.map (fun r => r.eraseIdx i)) := by
        apply mapRemove_eq_some
        intro r hrm
        rw [hrows r (by simp [hrm])]
        omega
      set sub := rest.map (fun r => r.eraseIdx i) with hsubdef
      have hsublen : sub.length = wp := by simp [hsubdef, hrest]
      have hsubrows : ∀ r ∈ sub, r.length = wp := by
        intro r hrm
        rw [hsubdef] at hrm
        obtain ⟨r0, hr0, rfl⟩ := List.mem_map.mp hrm
        have hl : r0.length = wp + 1 := hrows r0 (by simp [hr0])
        rw [List.length_eraseIdx_of_lt (by omega), hl]
        omega
      obtain ⟨d, hd⟩ := ih wp (by omega) sub (by omega) hsublen hsubrows
      refine ⟨d * (if i % 2 = 1 then -1 else 1), ?_⟩
      rw [hmr]
      simp only [Option.some_bind, Nat.add_sub_cancel]
      rw [hd]
      rfl

theorem determinant_eq_detCoreF {m : Matrix} (hwf : Wf m)
    (hsq : m.width = m.height) :
    determinant m = detCoreF m.width m.width m.width m.rows := by
  rw [determinant, hwf.1, ← hsq]

theorem determinant_total {m : Matrix} (hwf : Wf m) (hsq : m.width = m.height)
    (h2 : 2 ≤ m.width) : ∃ d, determinant m = some d := by
  rw [determinant_eq_detCoreF hwf hsq]
  exact detCoreF_total m.width m.rows h2 (by rw [hwf.1, ← hsq]) hwf.2

theorem cofactor_total {m : Matrix} (hwf : Wf m) (hsq : m.width = m.height)
    (h3 : 3 ≤ m.width) {r k : Nat} (hr : r < m.width) (hk : k < m.width) :
    ∃ x, cofactor m r k = some x := by
  obtain ⟨hlen, hrows⟩ := hwf
  have hrlen : r < m.rows.length := by rw [hlen, ← hsq]; exact hr
  have h1 : removeAt m.rows r = some (m.rows.eraseIdx r) := removeAt_of_lt hrlen
  have h2 : ∀ x ∈ m.rows.eraseIdx r, k < x.length := by
    intro x hx
    rw [hrows x (List.mem_of_mem_eraseIdx hx)]
    exact hk
  have hmr := mapRemove_eq_some h2
  set sub := (m.rows.eraseIdx r).map (fun row => row.eraseIdx k) with hsubdef
  have hsublen : sub.length = m.width - 1 := by
    rw [hsubdef, List.length_map, List.length_eraseIdx_of_lt hrlen, hlen, ← hsq]
  have hsubrows : ∀ x ∈ sub, x.length = m.width - 1 := by
    intro x hx
    rw [hsubdef] at hx
    obtain ⟨row, hrow, rfl⟩ := List.mem_map.mp hx
    have hl : row.length = m.width := hrows row (List.mem_of_mem_eraseIdx hrow)
    rw [List.length_eraseIdx_of_lt (by omega), hl]
  obtain ⟨dd, hdd⟩ := detCoreF_total (m.width - 1) sub (by omega) hsublen hsubrows
  refine ⟨dd * (if (r + k) % 2 = 1 then -1 else 1), ?_⟩
  rw [cofactor, minor, submatrix, h1]
  simp only [Option.some_bind, hmr, Option.map_some']
  show (determinant ⟨m.width - 1, m.height - 1, sub⟩).map _ = _
  rw [determinant, ← hsq]
  simp only [hsublen, hdd, Option.map_some']

theorem det1x1_none (x : ℚ) : determinant ⟨1, 1, [[x]]⟩ = none := rfl

theorem det0x0_none : determinant ⟨0, 0, ([] : List (List ℚ))⟩ = none := rfl

theorem minor2x2_none (a b c d : ℚ) :
    ∀ r k : Nat, minor ⟨2, 2, [[a, b], [c, d]]⟩ r k = none := by
  intro r k
  match r, k with
  | 0, 0 => rfl
  | 0, 1 => rfl
  | 1, 0 => rfl
  | 1, 1 => rfl
  | 0, k + 2 =>
    simp [minor, submatrix, mapRemove, removeAt, show ¬(k + 2 < 2) from by omega]
  | 1, k + 2 =>
    simp [minor, submatrix, mapRemove, removeAt, show ¬(k + 2 < 2) from by omega]
  | r + 2, k =>
    simp [minor, submatrix, removeAt, show ¬(r + 2 < 2) from by omega]

theorem cofactor2x2_none (a b c d : ℚ) (r k : Nat) :
    cofactor ⟨2, 2, [[a, b], [c, d]]⟩ r k = none := by
  simp [cofactor, minor2x2_none]

theorem inverse2x2_none (a b c d : ℚ) :
    inverse ⟨2, 2, [[a, b], [c, d]]⟩ = none := by
  have hdet : determinant ⟨2, 2, [[a, b], [c, d]]⟩ = some (a * d - b * c) := rfl
  by_cases hz : a * d - b * c = 0
  · simp [inverse, invertible, hdet, hz]
  · simp [inverse, invertible, hdet, hz, cofGrid, cofRow, cofactor2x2_none]

theorem getSet_self {α : Type} : ∀ (l : List α) (i : Nat) (a : α),
    i < l.length → (l.set i a).get? i = some a
  | _ :: _, 0, _, _ => rfl
  | x :: l, i + 1, a, h => by
    simp only [List.set_cons_succ, List.get?_cons_succ]
    exact getSet_self l i a (by simpa using h)
  | [], i, a, h => by simp at h

theorem getSet_other {α : Type} : ∀ (l : List α) (i k : Nat) (a : α),
    i ≠ k → (l.set i a).get? k = l.get? k
  | [], _, _, _, _ => rfl
  | _ :: _, 0, 0, _, h => absurd rfl h
  | _ :: _, 0, _ + 1, _, _ => rfl
  | _ :: _, _ + 1, 0, _, _ => rfl
  | x :: l, i + 1, k + 1, a, h => by
    simp only [List.set_cons_succ, List.get?_cons_succ]
    exact getSet_other l i k a (fun he => h (by rw [he]))

theorem lt_of_get?_some {α : Type} : ∀ {l : List α} {i : Nat} {x : α},
    l.get? i = some x → i < l.length
  | _ :: _, 0, _, _ => by simp
  | a :: l, i + 1, x, h => by
    simp only [List.get?_cons_succ] at h
    have := lt_of_get?_some h
    simp
    omega
  | [], i, x, h => by simp [List.get?_nil] at h

theorem get?_of_map {α β : Type} (f : α → β) : ∀ (l : List α) (i : Nat),
    (l.map f).get? i = (l.get? i).map f
  | [], _ => rfl
  | _ :: _, 0 => rfl
  | _ :: l, i + 1 => get?_of_map f l i

theorem get?_replicate {α : Type} (a : α) : ∀ (n i : Nat),
    i < n → (List.replicate n a).get? i = some a
  | n + 1, 0, _ => rfl
  | n + 1, i + 1, h => by
    simp only [List.replicate_succ, List.get?_cons_succ]
    exact get?_replicate a n i (by omega)
  | 0, _, h => absurd h (by omega)

theorem cofRow_spec {m : Matrix} {i : Nat} {C : Nat → Nat → ℚ} :
    ∀ (row : List ℚ) (j : Nat) (g : List (List ℚ)) (rowOld : List ℚ),
      g.get? i = some rowOld →
      rowOld.length = j + row.length →
      (∀ k, j ≤ k → k < rowOld.length → cofactor m i k = some (C i k)) →
      ∃ g2, cofRow m g i row j = some g2 ∧
        g2.length = g.length ∧
        (∀ i2, i2 ≠ i → g2.get? i2 = g.get? i2) ∧
        ∃ row2, g2.get? i = some row2 ∧ row2.length = rowOld.length ∧
          (∀ k, k < j → row2.get? k = rowOld.get? k) ∧
          (∀ k, j ≤ k → k < rowOld.length → row2.get? k = some (C i k)) := by
  intro row
  induction row with
  | nil =>
    intro j g rowOld hg hlen _
    refine ⟨g, rfl, rfl, fun _ _ => rfl, rowOld, hg, rfl, fun _ _ => rfl, ?_⟩
    intro k hk1 hk2
    exfalso
    simp only [List.length_nil] at hlen
    omega
  | cons v vr ih =>
    intro j g rowOld hg hlen hcof
    simp only [List.length_cons] at hlen
    have hjlt : j < rowOld.length := by omega
    have hc0 : cofactor m i j = some (C i j) := hcof j (le_refl j) hjlt
    have hset : setGrid g i j (C i j) = some (g.set i (rowOld.set j (C i j))) := by
      rw [setGrid, hg]
      simp [hjlt]
    have hg1 : (g.set i (rowOld.set j (C i j))).get? i = some (rowOld.set j (C i j)) :=
      getSet_self g i _ (lt_of_get?_some hg)
    have hlen1 : (rowOld.set j (C i j)).length = (j + 1) + vr.length := by
      simp only [List.length_set]
      omega
    have hcof1 : ∀ k, j + 1 ≤ k → k < (rowOld.set j (C i j)).length →
        cofactor m i k = some (C i k) := by
      intro k h1 h2
      simp only [List.length_set] at h2
      exact hcof k (by omega) h2
    obtain ⟨g2, hg2run, hg2len, hg2other, row2, hrow2, hrow2len, hrow2lo, hrow2hi⟩ :=
      ih (j + 1) (g.set i (rowOld.set j (C i j))) (rowOld.set j (C i j)) hg1 hlen1 hcof1
    refine ⟨g2, ?_, ?_, ?_, row2, hrow2, ?_, ?_, ?_⟩
    · simp only [cofRow, hc0, hset]
      exact hg2run
    · rw [hg2len, List.length_set]
    · intro i2 hne
      rw [hg2other i2 hne, getSet_other g i i2 _ (fun he => hne he.symm)]
    · rw [hrow2len, List.length_set]
    · intro k hk
      rw [hrow2lo k (by omega), getSet_other rowOld j k _ (by omega)]
    · intro k hk1 hk2
      by_cases hkj : k = j
      · subst hkj
        rw [hrow2lo k (by omega)]
        exact getSet_self rowOld k _ hjlt
      · exact hrow2hi k (by omega) (by simp only [List.length_set]; exact hk2)

theorem cofGrid_spec {m : Matrix} {C : Nat → Nat → ℚ} {w : Nat} :
    ∀ (rs : List (List ℚ)) (i : Nat) (g : List (List ℚ)),
      (∀ r ∈ rs, r.length = w) →
      g.length = i + rs.length →
      (∀ i2, i ≤ i2 → i2 < g.length →
        ∃ rowi, g.get? i2 = some rowi ∧ rowi.length = w) →
      (∀ i2 k, i ≤ i2 → i2 < g.length → k < w → cofactor m i2 k = some (C i2 k)) →
      ∃ g2, cofGrid m g rs i = some g2 ∧ g2.length = g.length ∧
        (∀ i2, i2 < i → g2.get? i2 = g.get? i2) ∧
        (∀ i2 k, i ≤ i2 → i2 < g.length → k < w → get2 g2 i2 k = some (C i2 k)) ∧
        (∀ i2, i ≤ i2 → i2 < g.length →
          ∃ row2, g2.get? i2 = some row2 ∧ row2.length = w) := by
  intro rs
  induction rs with
  | nil =>
    intro i g _ hglen hrows _
    simp only [List.length_nil, Nat.add_zero] at hglen
    exact ⟨g, rfl, rfl, fun _ _ => rfl,
      fun i2 k h1 h2 _ => absurd h2 (by omega), hrows⟩
  | cons row rs' ih =>
    intro i g hrs hglen hrows hcof
    simp only [List.length_cons] at hglen
    have hrowlen : row.length = w := hrs row (by simp)
    obtain ⟨rowOld, hrowOld, hrowOldLen⟩ := hrows i (le_refl i) (by omega)
    obtain ⟨g1, hg1run, hg1len, hg1other, row2, hg1i, hrow2len, hrow2lo, hrow2hi⟩ :=
      @cofRow_spec m i C row 0 g rowOld hrowOld (by omega)
        (fun k _ hk => hcof i k (le_refl i) (by omega) (by omega))
    obtain ⟨g2, hg2run, hg2len, hg2below, hg2vals, hg2rows⟩ := ih (i + 1) g1
      (fun r hr => hrs r (by simp [hr]))
      (by omega)
      (by
        intro i2 h1 h2
        rw [hg1other i2 (by omega)]
        exact hrows i2 (by omega) (by omega))
      (by
        intro i2 k h1 h2 hk
        exact hcof i2 k (by omega) (by omega) hk)
    refine ⟨g2, ?_, by omega, ?_, ?_, ?_⟩
    · simp only [cofGrid, hg1run]
      exact hg2run
    · intro i2 h
      rw [hg2below i2 (by omega), hg1other i2 (by omega)]
    · intro i2 k h1 h2 hk
      by_cases hi2 : i2 = i
      · subst hi2
        rw [get2, hg2below i2 (by omega), hg1i]
        simp only [Option.some_bind]
        exact hrow2hi k (by omega) (by omega)
      · exact hg2vals i2 k (by omega) (by omega) hk
    · intro i2 h1 h2
      by_cases hi2 : i2 = i
      · subst hi2
        refine ⟨row2, ?_, by omega⟩
        rw [hg2below i2 (by omega)]
        exact hg1i
      · exact hg2rows i2 (by omega) (by omega)

theorem colAux_spec {c : Nat} : ∀ (rows : List (List ℚ)),
    (∀ r ∈ rows, c < r.length) →
    ∃ cl, colAux c rows = some cl ∧ cl.length = rows.length ∧
      (∀ j, cl.get? j = (rows.get? j).bind (fun r => r.get? c)) := by
  intro rows
  induction rows with
  | nil =>
    exact fun _ => ⟨[], rfl, rfl, fun j => by cases j <;> rfl⟩
  | cons r rs ih =>
    intro h
    obtain ⟨x, hx⟩ : ∃ x, r.get? c = some x :=
      ⟨r.get ⟨c, h r (by simp)⟩, List.get?_eq_get _⟩
    obtain ⟨cl, hcl, hlen, hvals⟩ := ih (fun y hy => h y (by simp [hy]))
    refine ⟨x :: cl, ?_, by simp [hlen], ?_⟩
    · simp only [colAux, hx, hcl, Option.some_bind, Option.map_some']
    · intro j
      cases j with
      | zero =>
        simp only [List.get?_cons_zero, Option.some_bind]
        exact hx.symm
      | succ j => simpa using hvals j

theorem colsFrom_spec {wd ht : Nat} {G : List (List ℚ)}
    (hrows : ∀ r ∈ G, wd ≤ r.length) :
    ∀ (k i : Nat), i + k ≤ wd →
      ∃ cols, colsFrom ⟨wd, ht, G⟩ i k = some cols ∧ cols.length = k ∧
        ∀ t, t < k → ∃ cl, cols.get? t = some cl ∧
          cl.length = G.length ∧
          (∀ j, cl.get? j = (G.get? j).bind (fun r => r.get? (i + t))) := by
  intro k
  induction k with
  | zero =>
    intro i _
    exact ⟨[], rfl, rfl, fun t ht2 => absurd ht2 (by omega)⟩
  | succ k ih =>
    intro i hik
    obtain ⟨cl, hcl, hcllen, hclvals⟩ := @colAux_spec i G
      (fun r hr => by have := hrows r hr; omega)
    obtain ⟨cols, hcols, hcolslen, hcolsvals⟩ := ih (i + 1) (by omega)
    refine ⟨cl :: cols, ?_, by simp [hcolslen], ?_⟩
    · simp only [colsFrom, col, hcl, hcols, Option.some_bind, Option.map_some']
    · intro t ht2
      cases t with
      | zero =>
        refine ⟨cl, by simp, hcllen, ?_⟩
        intro j
        rw [Nat.add_zero]
        exact hclvals j
      | succ t =>
        obtain ⟨cl2, h1, h2, h3⟩ := hcolsvals t (by omega)
        refine ⟨cl2, by simpa using h1, h2, ?_⟩
        intro j
        rw [h3 j, show i + 1 + t = i + (t + 1) from by omega]

theorem inverse_spec_of_invertible :
    ∀ (m : Matrix) (d : ℚ), Wf m → m.width = m.height → 3 ≤ m.width →
      determinant m = some d → d ≠ 0 →
      ∃ N, inverse m = some N ∧ N.width = m.width ∧ N.height = m.height ∧
        ∀ i j, i < m.width → j < m.width →
          ∃ c, cofactor m j i = some c ∧ get2 N.rows i j = some (c / d) := by
  · intro m d hwf hsq h3 hdet hdnz
    have hg0len : (List.replicate m.height (List.replicate m.width (0 : ℚ))).length
        = 0 + m.rows.length := by
      simp [hwf.1]
    have hg0rows : ∀ i2, 0 ≤ i2 →
        i2 < (List.replicate m.height (List.replicate m.width (0 : ℚ))).length →
        ∃ rowi,
          (List.replicate m.height (List.replicate m.width (0 : ℚ))).get? i2 = some rowi
          ∧ rowi.length = m.width := by
      intro i2 _ h2
      simp only [List.length_replicate] at h2
      exact ⟨List.replicate m.width 0, get?_replicate _ _ _ h2, by simp⟩
    have hcofsome : ∀ i2 k, 0 ≤ i2 →
        i2 < (List.replicate m.height (List.replicate m.width (0 : ℚ))).length →
        k < m.width →
        cofactor m i2 k = some ((cofactor m i2 k).getD 0) := by
      intro i2 k _ h2 hk
      simp only [List.length_replicate] at h2
      obtain ⟨x, hx⟩ := @cofactor_total m hwf hsq h3 i2 k (by omega) hk
      rw [hx]
      rfl
    obtain ⟨G, hGrun, hGlen, hGbelow, hGvals, hGrows⟩ :=
      @cofGrid_spec m (fun i2 k => (cofactor m i2 k).getD 0) m.width
        m.rows 0 _ hwf.2 hg0len hg0rows hcofsome
    have hGrowsAll : ∀ r ∈ G, m.width ≤ r.length := by
      intro r hr
      obtain ⟨j, hj⟩ := List.mem_iff_get?.mp hr
      obtain ⟨row2, hrow2, hrow2len⟩ := hGrows j (by omega)
        (by rw [← hGlen]; exact lt_of_get?_some hj)
      rw [hj] at hrow2
      injection hrow2 with hre
      rw [hre, hrow2len]
    obtain ⟨cols, hcols, hcolslen, hcolsvals⟩ :=
      @colsFrom_spec m.width m.height G hGrowsAll m.width 0 (by omega)
    have htrans : transpose ⟨m.width, m.height, G⟩ = some ⟨m.width, m.height, cols⟩ := by
      simp only [transpose]
      rw [hcols]
      rfl
    have hinv : invertible m = some true := by
      rw [invertible, hdet]
      simp [hdnz]
    refine ⟨⟨m.width, m.height, cols.map (fun r => r.map (fun v => v / d))⟩,
      ?_, rfl, rfl, ?_⟩
    · simp only [inverse, hinv, Option.some_bind, if_true]
      rw [hGrun]
      simp only [Option.some_bind]
      rw [hdet]
      simp only [Option.some_bind]
      rw [htrans]
      rfl
    · intro i j hi hj
      obtain ⟨cl, hcl, hcllen, hclvals⟩ := hcolsvals i hi
      have hval : get2 G j i = some ((cofactor m j i).getD 0) :=
        hGvals j i (by omega) (by simp only [List.length_replicate]; omega) hi
      obtain ⟨x, hx⟩ := cofactor_total hwf hsq h3 hj hi
      refine ⟨x, hx, ?_⟩
      simp only [get2, get?_of_map, hcl, Option.map_some', Option.some_bind]
      rw [hclvals j, Nat.zero_add]
      simp only [get2] at hval
      rw [hval]
      simp only [Option.map_some']
      rw [hx]
      rfl

/-! Claim theorems. -/

theorem detRowSum_eq_laplaceSum {m : Matrix} {row0 : List ℚ}
    {rest : List (List ℚ)} (hrows : m.rows = row0 :: rest) :
    ∀ (row : List ℚ) (j : Nat),
      detRowSum (fun sub => detCoreF rest.length (m.width - 1) (m.height - 1) sub)
        rest row j = laplaceSum m row j := by
  intro row
  induction row with
  | nil =>
    intro j
    rfl
  | cons v vr ih =>
    intro j
    have hcof : cofactor m 0 j =
        (mapRemove j rest).bind (fun sub =>
          (detCoreF rest.length (m.width - 1) (m.height - 1) sub).map
            (fun d => d * (if j % 2 = 1 then -1 else 1))) := by
      rw [cofactor, minor, submatrix, hrows, removeAt_of_lt (by simp)]
      simp only [List.eraseIdx_cons_zero, Option.some_bind, Nat.zero_add]
      cases hmr : mapRemove j rest with
      | none => rfl
      | some sub =>
        simp only [Option.map_some', Option.some_bind, determinant,
          mapRemove_length hmr]
    simp only [detRowSum, laplaceSum, ← hcof]
    cases hc : cofactor m 0 j with
    | none => rfl
    | some c =>
      simp only [ih (j + 1)]
      cases laplaceSum m vr (j + 1) <;> rfl

/-- C5: for every two vectors `a` and `b` (tuples with fourth component 0),
`cross(a, b) == -cross(b, a)` under the epsilon equality on tuples, and the
fourth component of the cross-product result is exactly `0.0` regardless of
the operands' fourth components. -/
theorem C5_cross_anticommutative :
    (∀ a b : Tuple, a.w = 0 → b.w = 0 →
        tupleEq (cross a b) ((cross b a).neg) = true)
  ∧ (∀ a b : Tuple, (cross a b).w = 0) := by
  constructor
  · intro a b _ _
    apply tupleEq_of_eq <;> simp [cross, Tuple.neg, VECTOR] <;> ring
  · intro a b
    rfl

/-- Witness for C5 at the two concrete vectors `(1,2,3)` and `(2,3,4)`. -/
theorem C5_cross_anticommutative_witness :
    tupleEq (cross (vector 1 2 3) (vector 2 3 4))
      ((cross (vector 2 3 4) (vector 1 2 3)).neg) = true :=
  C5_cross_anticommutative.1 (vector 1 2 3) (vector 2 3 4) rfl rfl

/-- C6: `Matrix::new(rows)` fails fatally (`none`) whenever the rows are
ragged (some row differs in length from the first); on rectangular rows it
returns a matrix whose height is the number of rows and whose width is the
common row length. -/
theorem C6_new_rejects_ragged :
    ∀ rows : List (List ℚ),
      ((∀ r ∈ rows, r.length = (rows.headD []).length) →
          matrixNew rows = some ⟨(rows.headD []).length, rows.length, rows⟩)
    ∧ ((¬ ∀ r ∈ rows, r.length = (rows.headD []).length) →
          matrixNew rows = none) := by
  intro rows
  have hw : (if rows.length > 0 then (rows.headD []).length else 0) =
      (rows.headD []).length := by
    cases rows <;> simp
  constructor
  · intro h
    have hall : (rows.all fun r => r.length = (rows.headD []).length) = true := by
      simp only [List.all_eq_true, decide_eq_true_eq]
      exact h
    simp only [matrixNew, hw, hall, if_true]
  · intro h
    simp only [matrixNew, hw]
    rw [if_neg]
    simp only [List.all_eq_true, decide_eq_true_eq]
    exact h

/-- Witness for C6: a ragged input is rejected, a rectangular one accepted. -/
theorem C6_new_rejects_ragged_witness :
    matrixNew [[1, 2], [3]] = none
  ∧ matrixNew [[1, 2], [3, 4]] = some ⟨2, 2, [[1, 2], [3, 4]]⟩ :=
  ⟨(C6_new_rejects_ragged [[1, 2], [3]]).2 (by decide),
   (C6_new_rejects_ragged [[1, 2], [3, 4]]).1 (by decide)⟩

/-- C7: each serialized colour channel is the raw channel clamped to
`[0, 1]`, scaled by 255 and rounded to the nearest integer (the second
clamp in the source is the identity); in particular `(1.5, 0, 0)`
serializes to `(255, 0, 0)` and `(-0.5, 0, 1)` to `(0, 0, 255)`. -/
theorem C7_serialize_clamp_scale_round :
    (∀ c : ℚ, writeChannel c = fround (255 * fclamp c 0 1))
  ∧ writePixel (color (3 / 2) 0 0) = (255, 0, 0)
  ∧ writePixel (color (-(1 / 2)) 0 1) = (0, 0, 255) := by
  refine ⟨?_, ?_, ?_⟩
  · intro c
    obtain ⟨h0, h1⟩ := @fclamp_mem c 0 1 (by norm_num)
    have h2 : fclamp (255 * fclamp c 0 1) 0 255 = 255 * fclamp c 0 1 := by
      rw [fclamp, if_neg (by nlinarith), if_neg (by nlinarith)]
    rw [writeChannel, h2]
  · norm_num [writePixel, writeChannel, color, Tuple.red, Tuple.green,
      Tuple.blue, fclamp, fround]
  · norm_num [writePixel, writeChannel, color, Tuple.red, Tuple.green,
      Tuple.blue, fclamp, fround]

/-- C8: matrix equality never inspects the width and height fields — it is
a function of the two flattened row-major element sequences alone — so a
2×2 and a 1×4 matrix with the same four values compare equal, as do two
matrices where one flattened sequence is a prefix of the other. -/
theorem C8_eq_ignores_dimensions :
    (∀ (w h w2 h2 w3 h3 w4 h4 : Nat) (R S : List (List ℚ)),
        matrixEq ⟨w, h, R⟩ ⟨w2, h2, S⟩ = matrixEq ⟨w3, h3, R⟩ ⟨w4, h4, S⟩)
  ∧ matrixEq ⟨2, 2, [[1, 2], [3, 4]]⟩ ⟨4, 1, [[1, 2, 3, 4]]⟩ = true
  ∧ matrixEq ⟨2, 2, [[1, 2], [3, 4]]⟩ ⟨2, 3, [[1, 2], [3, 4], [5, 6]]⟩ = true := by
  refine ⟨fun _ _ _ _ _ _ _ _ _ _ => rfl, ?_, ?_⟩ <;>
    simp [matrixEq, epsilonEq_self]

/-- C3: `invertible()` is exactly `determinant() != 0.0` (exact zero test,
so a tiny nonzero determinant such as `2⁻¹²⁰ < EPSILON` still counts as
invertible), and `inverse()` on a matrix whose determinant is exactly zero
aborts fatally (`none`) instead of returning a value. -/
theorem C3_invertible_exact_zero_test :
    (∀ (m : Matrix) (d : ℚ), determinant m = some d →
        (invertible m = some true ↔ d ≠ 0))
  ∧ (∀ m : Matrix, determinant m = some 0 → inverse m = none)
  ∧ determinant ⟨2, 2, [[1 / 2 ^ 60, 0], [0, 1 / 2 ^ 60]]⟩ = some (1 / 2 ^ 120)
  ∧ (1 / 2 ^ 120 : ℚ) ≠ 0
  ∧ (1 / 2 ^ 120 : ℚ) < EPSILON
  ∧ invertible ⟨2, 2, [[1 / 2 ^ 60, 0], [0, 1 / 2 ^ 60]]⟩ = some true := by
  refine ⟨?_, ?_, ?_, by norm_num, by rw [EPSILON]; norm_num, ?_⟩
  · intro m d h
    simp [invertible, h]
  · intro m h
    simp [inverse, invertible, h]
  · norm_num [determinant, detCoreF, get2]
  · norm_num [invertible, determinant, detCoreF, get2]

/-- Witness for C3: the identity has nonzero determinant and is invertible,
the zero matrix has determinant zero and `inverse` aborts on it. -/
theorem C3_invertible_exact_zero_test_witness :
    (invertible ⟨2, 2, [[1, 0], [0, 1]]⟩ = some true ↔ (1 : ℚ) ≠ 0)
  ∧ inverse ⟨2, 2, [[0, 0], [0, 0]]⟩ = none :=
  ⟨C3_invertible_exact_zero_test.1 ⟨2, 2, [[1, 0], [0, 1]]⟩ 1
      (by norm_num [determinant, detCoreF, get2]),
   C3_invertible_exact_zero_test.2.1 ⟨2, 2, [[0, 0], [0, 0]]⟩
      (by norm_num [determinant, detCoreF, get2])⟩

/-- C9: `determinant` on a 1×1 matrix never returns (the general-expansion
branch reaches a 0×0 submatrix and indexes its empty row list, which also
makes the 0×0 determinant abort); consequently `minor`, `cofactor` and
`inverse` abort fatally on every 2×2 matrix even though it is square; the
operations are total only from the stated sizes up: `determinant` returns
a value on every well-formed square matrix of size ≥ 2, `cofactor`
(hence `minor`) on every well-formed square matrix of size ≥ 3 at
in-range indices, and `inverse` on every well-formed invertible square
matrix of size ≥ 3. -/
theorem C9_small_matrix_fatal_failures :
    (∀ x : ℚ, determinant ⟨1, 1, [[x]]⟩ = none)
  ∧ determinant ⟨0, 0, ([] : List (List ℚ))⟩ = none
  ∧ (∀ (a b c d : ℚ) (r k : Nat),
        minor ⟨2, 2, [[a, b], [c, d]]⟩ r k = none
      ∧ cofactor ⟨2, 2, [[a, b], [c, d]]⟩ r k = none)
  ∧ (∀ a b c d : ℚ, inverse ⟨2, 2, [[a, b], [c, d]]⟩ = none)
  ∧ (∀ m : Matrix, Wf m → m.width = m.height → 2 ≤ m.width →
        ∃ d, determinant m = some d)
  ∧ (∀ m : Matrix, Wf m → m.width = m.height → 3 ≤ m.width →
        ∀ r k, r < m.width → k < m.width → ∃ x, cofactor m r k = some x)
  ∧ (∀ (m : Matrix) (d : ℚ), Wf m → m.width = m.height → 3 ≤ m.width →
        determinant m = some d → d ≠ 0 → ∃ N, inverse m = some N) :=
  ⟨det1x1_none, det0x0_none,
   fun a b c d r k => ⟨minor2x2_none a b c d r k, cofactor2x2_none a b c d r k⟩,
   inverse2x2_none,
   fun _ hwf hsq h2 => determinant_total hwf hsq h2,
   fun _ hwf hsq h3 _ _ hr hk => cofactor_total hwf hsq h3 hr hk,
   fun m d hwf hsq h3 hdet hdnz =>
     (inverse_spec_of_invertible m d hwf hsq h3 hdet hdnz).imp
       (fun _ h => h.1)⟩

/-- Witness for C9 at concrete matrices: a 2×2 minor aborts, a 2×2
determinant and a 3×3 cofactor return values. -/
theorem C9_small_matrix_fatal_failures_witness :
    minor ⟨2, 2, [[1, 0], [0, 1]]⟩ 0 0 = none
  ∧ (∃ d, determinant ⟨2, 2, [[1, 0], [0, 1]]⟩ = some d)
  ∧ (∃ x, cofactor ⟨3, 3, [[1, 2, 3], [4, 5, 6], [7, 8, 10]]⟩ 1 2 = some x) :=
  ⟨(C9_small_matrix_fatal_failures.2.2.1 1 0 0 1 0 0).1,
   C9_small_matrix_fatal_failures.2.2.2.2.1 ⟨2, 2, [[1, 0], [0, 1]]⟩
     ⟨by decide, by decide⟩ rfl (by decide),
   C9_small_matrix_fatal_failures.2.2.2.2.2.1 ⟨3, 3, [[1, 2, 3], [4, 5, 6], [7, 8, 10]]⟩
     ⟨by decide, by decide⟩ rfl (by decide) 1 2 (by decide) (by decide)⟩

/-- C2: `determinant` returns `a·d − b·c` in the 2×2 base case and the
Laplace expansion along the first row otherwise (the sum over column index
`i` of `element[0][i] × cofactor(0, i)`), with
`cofactor(r,c) = minor(r,c) × (−1 if r+c odd else 1)` and
`minor(r,c) = determinant(submatrix(r,c))`; for the literal
`M = [[1,2,6],[-5,8,-4],[2,6,4]]`, `cofactor(0,0) = 56`,
`cofactor(0,1) = 12`, `cofactor(0,2) = -46`, `determinant(M) = -196`. -/
theorem C2_determinant_laplace :
    (∀ a b c d : ℚ, determinant ⟨2, 2, [[a, b], [c, d]]⟩ = some (a * d - b * c))
  ∧ (∀ (m : Matrix) (row0 : List ℚ) (rest : List (List ℚ)),
        m.width = m.height → m.width ≠ 2 → m.rows = row0 :: rest →
        determinant m = laplaceSum m row0 0)
  ∧ (∀ (m : Matrix) (r c : Nat),
        cofactor m r c = (minor m r c).map
          (fun v => v * (if (r + c) % 2 = 1 then -1 else 1)))
  ∧ (∀ (m : Matrix) (r c : Nat), minor m r c = (submatrix m r c).bind determinant)
  ∧ cofactor M3 0 0 = some 56
  ∧ cofactor M3 0 1 = some 12
  ∧ cofactor M3 0 2 = some (-46)
  ∧ determinant M3 = some (-196) := by
  refine ⟨fun a b c d => rfl, ?_, fun m r c => rfl, fun m r c => rfl, ?_, ?_, ?_, ?_⟩
  · intro m row0 rest hsq h2 hrows
    have hlen : m.rows.length = rest.length + 1 := by rw [hrows]; simp
    rw [determinant, hlen, hrows, detCoreF_cons_succ hsq h2,
      detRowSum_eq_laplaceSum hrows]
  · norm_num [M3, cofactor, minor, submatrix, determinant, detCoreF, detRowSum,
      mapRemove, removeAt, get2, List.eraseIdx]
  · norm_num [M3, cofactor, minor, submatrix, determinant, detCoreF, detRowSum,
      mapRemove, removeAt, get2, List.eraseIdx]
  · norm_num [M3, cofactor, minor, submatrix, determinant, detCoreF, detRowSum,
      mapRemove, removeAt, get2, List.eraseIdx]
  · norm_num [M3, determinant, detCoreF, detRowSum, mapRemove, removeAt, get2,
      List.eraseIdx]

/-- Witness for C2: the Laplace-expansion equation instantiated at the
literal 3×3 matrix `M3`. -/
theorem C2_determinant_laplace_witness :
    determinant M3 = laplaceSum M3 [1, 2, 6] 0 :=
  C2_determinant_laplace.2.1 M3 [1, 2, 6] [[-5, 8, -4], [2, 6, 4]]
    rfl (by decide) rfl

/-- C4 counterexample: `transpose` keeps `width`/`height` unswapped, so on
the 1×2 matrix `[[1, 2]]` (a legal `Matrix::new` result) the first
transpose records dimensions 2×1 while its row data has become two rows of
one element each — violating the rows/width invariant — and the second
transpose indexes a too-short row out of bounds and aborts; hence
`transpose(transpose(M)) == M` fails for this `M`. -/
theorem C4_transpose_nonsquare_counterexample :
    matrixNew [[1, 2]] = some ⟨2, 1, [[1, 2]]⟩
  ∧ transpose ⟨2, 1, [[1, 2]]⟩ = some ⟨2, 1, [[1], [2]]⟩
  ∧ (transpose ⟨2, 1, [[1, 2]]⟩).bind transpose = none := by
  exact ⟨rfl, rfl, rfl⟩

theorem take_zip_eq {α β : Type} : ∀ (l1 : List α) (l2 : List β),
    (l1.take l2.length).zip l2 = l1.zip l2
  | [], _ => by simp
  | _ :: _, [] => by simp
  | a :: l1, b :: l2 => by simp [take_zip_eq l1 l2]

theorem dotZip_take4 (row : List ℚ) (t : Tuple) :
    dotZip (row.take 4) t.toList = dotZip row t.toList := by
  rw [dotZip, dotZip, show (4 : Nat) = t.toList.length from rfl, take_zip_eq]

theorem mmtLoop_take4 (t : Tuple) : ∀ (rows : List (List ℚ)) (res : List ℚ) (i : Nat),
    mmtLoop t.toList res (rows.map (fun r => r.take 4)) i =
      mmtLoop t.toList res rows i := by
  intro rows
  induction rows with
  | nil =>
    intro res i
    rfl
  | cons row rs ih =>
    intro res i
    simp only [List.map_cons, mmtLoop, dotZip_take4]
    cases setIdx res i (dotZip row t.toList) with
    | none => rfl
    | some res1 => exact ih res1 (i + 1)

theorem mmtLoop_length_spec {v : List ℚ} :
    ∀ (rows : List (List ℚ)) (res : List ℚ) (i : Nat),
      i + rows.length ≤ res.length →
      ∃ res2, mmtLoop v res rows i = some res2 ∧ res2.length = res.length := by
  intro rows
  induction rows with
  | nil =>
    intro res i _
    exact ⟨res, rfl, rfl⟩
  | cons row rs ih =>
    intro res i h
    simp only [List.length_cons] at h
    have hset : setIdx res i (dotZip row v) = some (res.set i (dotZip row v)) := by
      simp [setIdx, show i < res.length from by omega]
    obtain ⟨res2, hr, hl⟩ := ih (res.set i (dotZip row v)) (i + 1)
      (by simp; omega)
    exact ⟨res2, by simp only [mmtLoop, hset, hr], by simp [hl]⟩

theorem tupleFromVec_isSome : ∀ l : List ℚ,
    (∃ t, tupleFromVec l = some t) ↔ l.length = 4 := by
  intro l
  match l with
  | [] => simp [tupleFromVec]
  | [_] => simp [tupleFromVec]
  | [_, _] => simp [tupleFromVec]
  | [_, _, _] => simp [tupleFromVec]
  | [_, _, _, _] => simp [tupleFromVec]
  | _ :: _ :: _ :: _ :: _ :: _ => simp [tupleFromVec]

/-- C10: matrix × tuple multiplication returns normally exactly when the
(well-formed) matrix's height is 4 — the row dot products fill a vector of
length `height` that is converted by an unchecked length-4 conversion —
and each output component only uses the first `min(width, 4)` entries of
its row: truncating every row to its first four entries does not change
the result. -/
theorem C10_mul_tuple_height_four :
    ∀ (m : Matrix) (t : Tuple), Wf m →
      ((∃ u, matMulTuple m t = some u) ↔ m.height = 4)
    ∧ matMulTuple m t =
        matMulTuple ⟨m.width, m.height, m.rows.map (fun r => r.take 4)⟩ t := by
  intro m t hwf
  constructor
  · rw [matMulTuple]
    obtain ⟨res2, hres, hlen⟩ := mmtLoop_length_spec m.rows
      (List.replicate m.height 0) 0 (by simp [hwf.1])
    rw [hres]
    simp only [Option.some_bind]
    rw [tupleFromVec_isSome res2, hlen, List.length_replicate]
  · rw [matMulTuple, matMulTuple]
    rw [mmtLoop_take4]

/-- Witness for C10 at a concrete well-formed 2×2 matrix: the
multiplication aborts (height is 2, not 4) and row truncation is
irrelevant there. -/
theorem C10_mul_tuple_height_four_witness :
    ((∃ u, matMulTuple ⟨2, 2, [[1, 0], [0, 1]]⟩ (point 1 2 3) = some u) ↔
        (2 : Nat) = 4)
  ∧ matMulTuple ⟨2, 2, [[1, 0], [0, 1]]⟩ (point 1 2 3) =
      matMulTuple ⟨2, 2, [[1, 0], [0, 1]].map (fun r => r.take 4)⟩ (point 1 2 3) :=
  C10_mul_tuple_height_four ⟨2, 2, [[1, 0], [0, 1]]⟩ (point 1 2 3)
    ⟨by decide, by decide⟩

/-- C1: `inverse` builds the matrix of cofactors, transposes it and divides
every element by the determinant, so `inverse(M)[i][j] = cofactor(j,i) / det(M)`
for all in-range indices of an invertible square matrix (of size ≥ 3, where
`cofactor` is defined); for the literal
`A = [[-5,2,6,-8],[1,-5,1,8],[7,7,-6,-7],[1,-3,7,4]]`, `determinant(A) = 532`,
`cofactor(2,3) = -160` and `inverse(A)[3][2] = -160/532`. -/
theorem C1_inverse_is_scaled_adjugate :
    (∀ (m : Matrix) (d : ℚ), Wf m → m.width = m.height → 3 ≤ m.width →
        determinant m = some d → d ≠ 0 →
        ∃ N, inverse m = some N ∧ N.width = m.width ∧ N.height = m.height ∧
          ∀ i j, i < m.width → j < m.width →
            ∃ c, cofactor m j i = some c ∧ get2 N.rows i j = some (c / d))
  ∧ determinant A4 = some 532
  ∧ cofactor A4 2 3 = some (-160)
  ∧ (inverse A4).bind (fun N => get2 N.rows 3 2) = some (-160 / 532) := by
  refine ⟨inverse_spec_of_invertible, ?_, ?_, ?_⟩
  · norm_num [A4, determinant, detCoreF, detRowSum, mapRemove, removeAt, get2,
      List.eraseIdx]
  · norm_num [A4, cofactor, minor, submatrix, determinant, detCoreF, detRowSum,
      mapRemove, removeAt, get2, List.eraseIdx]
  · norm_num [A4, inverse, invertible, cofGrid, cofRow, setGrid, transpose,
      colsFrom, col, colAux, cofactor, minor, submatrix, determinant, detCoreF,
      detRowSum, mapRemove, removeAt, get2, List.eraseIdx, List.replicate,
      List.set]


/-- Witness for C1: the adjugate characterization instantiated at the
literal matrix `A4` with determinant 532. -/
theorem C1_inverse_is_scaled_adjugate_witness :
    ∃ N, inverse A4 = some N ∧ N.width = A4.width ∧ N.height = A4.height ∧
      ∀ i j, i < A4.width → j < A4.width →
        ∃ c, cofactor A4 j i = some c ∧ get2 N.rows i j = some (c / 532) :=
  C1_inverse_is_scaled_adjugate.1 A4 532 ⟨by decide, by decide⟩ rfl (by decide)
    (by norm_num [A4, determinant, detCoreF, detRowSum, mapRemove, removeAt,
      get2, List.eraseIdx])
    (by norm_num)

end RayTracer
